import Mathlib

/-
Verification of the md2enex note-conversion pipeline (src/md2enex/md2enex.py).

The lxml element tree is modelled by the inductive type Forest, which
represents a sequence of sibling XML nodes: a forest is empty, a run of
character data followed by further siblings, or an element (tag, attribute
list in document order, child forest) followed by further siblings.  The
lxml text and tail strings of an element are the text nodes adjacent to it
in this representation.  A standalone element (the en-note root, a note, a
resource) is an EElem record.

External library calls of the source (file reads, the MD5 digest, base64
encoding, MIME guessing, URL decoding) enter the model as the fields of a
MediaCtx record, so every theorem holds for an arbitrary digest and
encoder; the file system is a finite association list from paths to byte
lists (bytes as Nat).  The pandoc markdown-to-HTML conversion, XML
serialization and DTD validation are likewise external: the per-file
processor handed to write_enex returns an Option, none standing for the
caught LxmlError or ValueError of the source loop.
-/

namespace Md2Enex

inductive Forest where
  | nil : Forest
  | text (s : String) (rest : Forest) : Forest
  | elem (tag : String) (attrs : List (String × String)) (children : Forest) (rest : Forest) : Forest
deriving DecidableEq

/-- A standalone element: tag, attributes and child forest. -/
structure EElem where
  tag : String
  attrs : List (String × String)
  children : Forest
deriving DecidableEq

/-- Concatenation of sibling sequences. -/
def fapp : Forest → Forest → Forest
  | Forest.nil, g => g
  | Forest.text s r, g => Forest.text s (fapp r g)
  | Forest.elem t a c r, g => Forest.elem t a c (fapp r g)

/-- The INVALID_TAGS list of the source, verbatim. -/
def INVALID_TAGS : List String :=
  ["applet", "base", "basefont", "bgsound", "blink", "body", "button", "dir",
   "fieldset", "figcaption", "form", "frame", "frameset", "head", "html",
   "iframe", "ilayer", "input", "isindex", "label", "layer", "legend", "link",
   "marquee", "menu", "meta", "noframes", "noscript", "object", "optgroup",
   "option", "param", "plaintext", "script", "select", "style", "textarea", "xml"]

/-- The INVALID_ATTRIBUTES list of the source, verbatim. -/
def INVALID_ATTRIBUTES : List String :=
  ["id", "class", "controls", "onclick", "ondblclick", "on*", "accesskey",
   "data", "data-cites", "data-emoji", "dynsrc", "tabindex", "aria-hidden"]

/-- Removal of the listed attribute names from one attribute list,
as lxml strip_attributes does per element. -/
def stripAttrList (bad : List String) (a : List (String × String)) : List (String × String) :=
  a.filter (fun p => decide (p.1 ∉ bad))

/-- etree.strip_attributes over a sibling forest: deletes the listed
attribute names from every element, leaving structure untouched. -/
def stripAttrsF (bad : List String) : Forest → Forest
  | Forest.nil => Forest.nil
  | Forest.text s r => Forest.text s (stripAttrsF bad r)
  | Forest.elem t a c r => Forest.elem t (stripAttrList bad a) (stripAttrsF bad c) (stripAttrsF bad r)

/-- etree.strip_tags over a sibling forest: an element whose tag is listed
is dropped and its processed children take its place (text content and
descendants are kept, only the element and its attributes go away); other
elements are kept and processed recursively.  lxml never removes the
element the call was made on, which is why this operates on child forests. -/
def stripTagsF (bad : List String) : Forest → Forest
  | Forest.nil => Forest.nil
  | Forest.text s r => Forest.text s (stripTagsF bad r)
  | Forest.elem t a c r =>
    if t ∈ bad then fapp (stripTagsF bad c) (stripTagsF bad r)
    else Forest.elem t a (stripTagsF bad c) (stripTagsF bad r)

/-- strip_note_el of the source: strip_attributes with INVALID_ATTRIBUTES
(which also affects the root element itself), then strip_tags with
INVALID_TAGS (which keeps the root element). -/
def strip_note_el (e : EElem) : EElem :=
  ⟨e.tag, stripAttrList INVALID_ATTRIBUTES e.attrs,
    stripTagsF INVALID_TAGS (stripAttrsF INVALID_ATTRIBUTES e.children)⟩

/-- External collaborators of add_resources: the file system (path to raw
bytes), hashlib.md5 hexdigest, base64.b64encode, mimetypes.guess_type and
urllib unquote. -/
structure MediaCtx where
  fs : List (String × List Nat)
  md5hex : List Nat → String
  b64encode : List Nat → String
  guessMime : String → Option String
  unquote : String → String

/-- os.path.exists plus open().read() over the modelled file system. -/
def lookupFile (ctx : MediaCtx) (p : String) : Option (List Nat) :=
  match ctx.fs.find? (fun q => q.1 == p) with
  | some q => some q.2
  | none => none

/-- os.path.join for the two-argument case used by the source. -/
def osPathJoin (a b : String) : String :=
  match b.data with
  | '/' :: _ => b
  | _ =>
    match a.data with
    | [] => b
    | _ => if a.data.getLast?.getD ' ' = '/' then a ++ b else a ++ "/" ++ b

/-- The four media tags scanned by the xpath union of add_resources. -/
def mediaTags : List String := ["img", "video", "audio", "embed"]

/-- The three tags renamed to img at the end of add_resources. -/
def vaeTags : List String := ["video", "audio", "embed"]

/-- Association-list attribute access, first match wins (attribute names
are unique in lxml, the list order is document order). -/
def getAttr (k : String) : List (String × String) → Option String
  | [] => none
  | (k2, v) :: r => if k2 = k then some v else getAttr k r

/-- full_path of add_resources: URL-decode the src value and join it to
the base directory of the markdown file. -/
def fullPathOf (ctx : MediaCtx) (baseDir src : String) : String :=
  osPathJoin baseDir (ctx.unquote src)

/-- mimetypes.guess_type with the image/jpeg fallback of the source. -/
def mimeOf (ctx : MediaCtx) (fullPath : String) : String :=
  (ctx.guessMime fullPath).getD "image/jpeg"

/-- Optional carried-over attribute: present in the built element exactly
when present on the original media element. -/
def optAttr (k : String) (a : List (String × String)) : List (String × String) :=
  match getAttr k a with
  | some v => [(k, v)]
  | none => []

/-- The attribute list of the en-media element built by add_resources:
type, hash (MD5 hexdigest of the raw bytes), then title and alt when the
original element carried them. -/
def enMediaAttrs (ctx : MediaCtx) (mime : String) (a : List (String × String))
    (bytes : List Nat) : List (String × String) :=
  [("type", mime), ("hash", ctx.md5hex bytes)] ++ optAttr "title" a ++ optAttr "alt" a

/-- Optional width/height child element of a resource. -/
def optDim (k : String) (a : List (String × String)) (rest : Forest) : Forest :=
  match getAttr k a with
  | some v => Forest.elem k [] (Forest.text v Forest.nil) rest
  | none => rest

/-- The resource element built by add_resources: data (base64 payload with
the encoding attribute), mime, then optional width and height. -/
def mkResource (ctx : MediaCtx) (mime : String) (a : List (String × String))
    (bytes : List Nat) : EElem :=
  ⟨"resource", [],
    Forest.elem "data" [("encoding", "base64")] (Forest.text (ctx.b64encode bytes) Forest.nil)
      (Forest.elem "mime" [] (Forest.text mime Forest.nil)
        (optDim "width" a (optDim "height" a Forest.nil)))⟩

/-- Pass one of add_resources over the child forest of the en-note root:
every media element carrying a src attribute whose decoded, joined path
exists on the file system is replaced in place by a childless en-media
element; media elements with no src or a missing file stay, and the scan
continues below them.  The replacement does not descend into the replaced
element: its subtree is detached from the output (the character data
adjacent to a replaced element is not at issue in any claim and is kept in
place here). -/
def replaceMediaF (ctx : MediaCtx) (baseDir : String) : Forest → Forest
  | Forest.nil => Forest.nil
  | Forest.text s r => Forest.text s (replaceMediaF ctx baseDir r)
  | Forest.elem t a c r =>
    if t ∈ mediaTags then
      match getAttr "src" a with
      | none => Forest.elem t a (replaceMediaF ctx baseDir c) (replaceMediaF ctx baseDir r)
      | some src =>
        match lookupFile ctx (fullPathOf ctx baseDir src) with
        | none => Forest.elem t a (replaceMediaF ctx baseDir c) (replaceMediaF ctx baseDir r)
        | some bytes =>
          Forest.elem "en-media"
            (enMediaAttrs ctx (mimeOf ctx (fullPathOf ctx baseDir src)) a bytes)
            Forest.nil (replaceMediaF ctx baseDir r)
    else Forest.elem t a (replaceMediaF ctx baseDir c) (replaceMediaF ctx baseDir r)

/-- The resource accumulator of add_resources.  The source first snapshots
all media elements with an xpath union (document order, a left-to-right
depth-first scan) and only then rewrites the tree; an element inside a
subtree detached by an earlier replacement keeps its parent link, so its
resource is still appended.  The accumulator therefore scans the original
forest in preorder, independent of the rewriting. -/
def collectResources (ctx : MediaCtx) (baseDir : String) : Forest → List EElem
  | Forest.nil => []
  | Forest.text _ r => collectResources ctx baseDir r
  | Forest.elem t a c r =>
    (if t ∈ mediaTags then
      match getAttr "src" a with
      | none => []
      | some src =>
        match lookupFile ctx (fullPathOf ctx baseDir src) with
        | none => []
        | some bytes => [mkResource ctx (mimeOf ctx (fullPathOf ctx baseDir src)) a bytes]
    else []) ++ collectResources ctx baseDir c ++ collectResources ctx baseDir r

/-- Leading character data of a sibling sequence, dropped.  Used where the
source loses the text field of a removed figure and where lxml remove
takes the tail text away together with the removed element. -/
def dropLeadingText : Forest → Forest
  | Forest.nil => Forest.nil
  | Forest.text _ r => dropLeadingText r
  | Forest.elem t a c r => Forest.elem t a c r

/-- Pass two of add_resources: every figure element is removed and its
child elements (with their tails) are inserted at its position in order;
the text field of the figure and its own tail are lost with it (lxml
remove takes the tail along).  The source processes a findall snapshot
outer-first while this recursion splices bottom-up; the two produce the
same forest, since splicing an inner figure before or after its hoisted
parent moves the same children to the same relative positions. -/
def stripFiguresF : Forest → Forest
  | Forest.nil => Forest.nil
  | Forest.text s r => Forest.text s (stripFiguresF r)
  | Forest.elem t a c r =>
    if t = "figure" then fapp (dropLeadingText (stripFiguresF c)) (dropLeadingText (stripFiguresF r))
    else Forest.elem t a (stripFiguresF c) (stripFiguresF r)

/-- The tag rewrite of the final loop of add_resources: video, audio and
embed become img, everything else keeps its name. -/
def renameTag (t : String) : String :=
  if t ∈ vaeTags then "img" else t

/-- Pass three of add_resources: rename every remaining video, audio or
embed element to img, in place. -/
def renameMediaF : Forest → Forest
  | Forest.nil => Forest.nil
  | Forest.text s r => Forest.text s (renameMediaF r)
  | Forest.elem t a c r => Forest.elem (renameTag t) a (renameMediaF c) (renameMediaF r)

/-- add_resources of the source: replace found media by en-media, splice
figures away, rename leftover media to img, and return the resource list
accumulated over the original children in document order. -/
def add_resources (ctx : MediaCtx) (baseDir : String) (e : EElem) : EElem × List EElem :=
  (⟨e.tag, e.attrs, renameMediaF (stripFiguresF (replaceMediaF ctx baseDir e.children))⟩,
   collectResources ctx baseDir e.children)

/-- create_note_content of the source, applied to the already-parsed
children of the en-note root (pandoc conversion and the h1-line skip
produce that forest and are external).  The XML serialization of the
processed tree into CDATA and its DTD validation are also external; the
content element here carries the processed en-note element as its single
child in place of the serialized bytes. -/
def create_note_content (ctx : MediaCtx) (baseDir : String) (rawChildren : Forest) :
    EElem × List EElem :=
  let en := strip_note_el ⟨"en-note", [], rawChildren⟩
  let out := add_resources ctx baseDir en
  (⟨"content", [], Forest.elem out.1.tag out.1.attrs out.1.children Forest.nil⟩, out.2)

/-- Python whitespace as stripped by str.strip with no argument
(restricted to the ASCII range; the model keys on these characters). -/
def isPyWs (c : Char) : Bool :=
  c == ' ' || c == '\t' || c == '\n' || c == '\r' || c == '\x0b' || c == '\x0c'

/-- str.strip over a character list: leading run dropped, then the
trailing run dropped via reversal. -/
def stripL (l : List Char) : List Char :=
  ((l.dropWhile isPyWs).reverse.dropWhile isPyWs).reverse

/-- str.strip of the source. -/
def pyStrip (s : String) : String := ⟨stripL s.data⟩

/-- Splitting a character list at slashes. -/
def splitOnSlash : List Char → List (List Char)
  | [] => [[]]
  | c :: r =>
    let rest := splitOnSlash r
    if c = '/' then [] :: rest
    else
      match rest with
      | [] => [[c]]
      | h :: t => (c :: h) :: t

/-- pathlib Path(file).name: the last nonempty slash-separated component. -/
def pathlibName (s : String) : String :=
  ⟨(((splitOnSlash s.data).filter (fun p => !p.isEmpty)).getLast?).getD []⟩

/-- Index of the last dot of a character list, if any. -/
def lastDotIdx : List Char → Option Nat
  | [] => none
  | c :: r =>
    match lastDotIdx r with
    | some i => some (i + 1)
    | none => if c = '.' then some 0 else none

/-- pathlib Path(file).stem: the name cut at its last dot, when that dot
is neither the first nor the last character of the name. -/
def pathStem (s : String) : String :=
  let l := (pathlibName s).data
  match lastDotIdx l with
  | some i => if 0 < i ∧ i < l.length - 1 then ⟨l.take i⟩ else ⟨l⟩
  | none => ⟨l⟩

/-- create_title of the source: a title element whose text is the stripped
stem of the file name. -/
def create_title (file : String) : EElem :=
  ⟨"title", [], Forest.text (pyStrip (pathStem file)) Forest.nil⟩

/-- Appconfig.APP_NAME of the source. -/
def APP_NAME : String := "md2enex"

/-- create_tag of the source: one tag element whose text is the app name,
the literal -import, a colon and the run timestamp (datetime.now
isoformat, external, passed in as a string). -/
def create_tag (runTs : String) : EElem :=
  ⟨"tag", [], Forest.text (APP_NAME ++ "-import" ++ ":" ++ runTs) Forest.nil⟩

/-- create_creation_date of the source; the formatted timestamp comes from
the file system and enex_date_format, both outside the claims. -/
def create_created (d : String) : EElem := ⟨"created", [], Forest.text d Forest.nil⟩

/-- create_updated_date of the source. -/
def create_updated (d : String) : EElem := ⟨"updated", [], Forest.text d Forest.nil⟩

/-- create_note_attributes of the source. -/
def create_note_attributes : EElem := ⟨"note-attributes", [], Forest.text "\n" Forest.nil⟩

/-- One standalone element placed in front of a sibling sequence. -/
def consE (e : EElem) (rest : Forest) : Forest :=
  Forest.elem e.tag e.attrs e.children rest

/-- A list of standalone elements as a sibling sequence. -/
def elemsForest : List EElem → Forest
  | [] => Forest.nil
  | e :: r => consE e (elemsForest r)

/-- process_note of the source: the note element holds title, content,
created, updated, the single tag, note-attributes, then the resources in
order. -/
def process_note (ctx : MediaCtx) (baseDir file : String) (rawChildren : Forest)
    (createdTs updatedTs runTs : String) : EElem :=
  let content := create_note_content ctx baseDir rawChildren
  ⟨"note", [],
    consE (create_title file)
      (consE content.1
        (consE (create_created createdTs)
          (consE (create_updated updatedTs)
            (consE (create_tag runTs)
              (consE create_note_attributes (elemsForest content.2))))))⟩

/-- The text of an element: its leading character data. -/
def firstTextOf : Forest → String
  | Forest.text s _ => s
  | _ => ""

/-- The texts of the direct tag children of a note, in order. -/
def tagTexts : Forest → List String
  | Forest.nil => []
  | Forest.text _ r => tagTexts r
  | Forest.elem t _ c r =>
    (if t = "tag" then [firstTextOf c] else []) ++ tagTexts r

/-- The title text of an assembled element. -/
def titleText (e : EElem) : String := firstTextOf e.children

/-- ASCII lower-casing of one character (str.lower of the source,
restricted to ASCII as used by the sort key). -/
def lowerChar (c : Char) : Char :=
  if 'A' ≤ c ∧ c ≤ 'Z' then Char.ofNat (c.toNat + 32) else c

/-- The sort key of write_enex: str.lower of the file name. -/
def sortKey (s : String) : String := ⟨s.data.map lowerChar⟩

/-- Python string comparison: lexicographic by code point. -/
def ltChars : List Char → List Char → Bool
  | [], [] => false
  | [], _ :: _ => true
  | _ :: _, [] => false
  | c :: r, d :: s =>
    if c.toNat < d.toNat then true
    else if d.toNat < c.toNat then false
    else ltChars r s

/-- Key order used by the sort of write_enex: a stands no later than b. -/
def keyLe (a b : String) : Prop := ltChars (sortKey b).data (sortKey a).data = false

/-- Stable insertion: the inserted element (which precedes the already
sorted remainder in the input) moves past strictly smaller keys only, so
it lands before equal keys, matching the stability of the Python sorted
builtin. -/
def insertSorted (x : String) : List String → List String
  | [] => [x]
  | y :: r =>
    if ltChars (sortKey y).data (sortKey x).data then y :: insertSorted x r
    else x :: y :: r

/-- sorted(files, key=str.lower) of write_enex.  Any stable sort under a
total preorder yields one and the same list, so stable insertion sort
models the Python sort exactly. -/
def sortFiles : List String → List String
  | [] => []
  | x :: r => insertSorted x (sortFiles r)

/-- The per-file loop of write_enex: each file is processed once; success
appends the note and bumps the count, a caught error records the file
name.  The processor stands for process_note with its pandoc conversion
and DTD validation; none is a caught LxmlError or ValueError. -/
def processFiles (p : String → Option EElem) : List String → List EElem × List String
  | [] => ([], [])
  | f :: r =>
    let acc := processFiles p r
    match p f with
    | some n => (n :: acc.1, acc.2)
    | none => (acc.1, f :: acc.2)

/-- Observable outcome of one write_enex run: whether the output file was
written, the notes it holds, the recorded failures, and the exit code
(0 for a plain return). -/
structure RunResult where
  wroteOutput : Bool
  notes : List EElem
  errors : List String
  exitCode : Nat
deriving DecidableEq

/-- write_enex of the source: no files is a fatal exit 1 before any
output; otherwise the sorted files are processed, the output is written
unconditionally, then a nonempty error list exits 1, a positive count
returns normally, and an empty count exits 2. -/
def write_enex (p : String → Option EElem) (files : List String) : RunResult :=
  if files.length ≤ 0 then ⟨false, [], [], 1⟩
  else
    let done := processFiles p (sortFiles files)
    if done.2.length > 0 then ⟨true, done.1, done.2, 1⟩
    else if done.1.length > 0 then ⟨true, done.1, done.2, 0⟩
    else ⟨true, done.1, done.2, 2⟩

/-- Preorder collection over the elements of a forest: fe is applied to
every element (tag, attributes) in document order, children before later
siblings; its results are concatenated. -/
def elemsF {β : Type} (fe : String → List (String × String) → List β) : Forest → List β
  | Forest.nil => []
  | Forest.text _ r => elemsF fe r
  | Forest.elem t a c r => fe t a ++ elemsF fe c ++ elemsF fe r

/-- All runs of character data of a forest, in document order. -/
def textsF : Forest → List String
  | Forest.nil => []
  | Forest.text s r => s :: textsF r
  | Forest.elem _ _ c r => textsF c ++ textsF r

/-- Every element of a forest as a (tag, attributes) pair, preorder. -/
def allElems : Forest → List (String × List (String × String)) :=
  elemsF (fun t a => [(t, a)])

/-- The elements whose tag is not in the given list, preorder. -/
def survivingElems (bad : List String) : Forest → List (String × List (String × String)) :=
  elemsF (fun t a => if t ∈ bad then [] else [(t, a)])

/-- The figure elements of a forest, preorder. -/
def figureElems : Forest → List (String × List (String × String)) :=
  elemsF (fun t a => if t = "figure" then [(t, a)] else [])

/-- Every element except figures, preorder (descending through figures). -/
def nonFigureElems : Forest → List (String × List (String × String)) :=
  elemsF (fun t a => if t = "figure" then [] else [(t, a)])

/-- The hash attributes of the en-media elements of a forest, preorder. -/
def enMediaHashes : Forest → List String :=
  elemsF (fun t a => if t = "en-media" then (getAttr "hash" a).toList else [])

/-- The video, audio and embed elements of a forest, preorder. -/
def vaeElems : Forest → List (String × List (String × String)) :=
  elemsF (fun t a => if t ∈ vaeTags then [(t, a)] else [])

/-- The media elements (img, video, audio, embed) of a forest, preorder. -/
def mediaElems : Forest → List (String × List (String × String)) :=
  elemsF (fun t a => if t ∈ mediaTags then [(t, a)] else [])

/-- The media elements whose src attribute resolves to an existing file:
their attribute list, resolved path and raw bytes, in the document order
of the scan. -/
def foundMedia (ctx : MediaCtx) (baseDir : String) :
    Forest → List (List (String × String) × String × List Nat) :=
  elemsF (fun t a =>
    if t ∈ mediaTags then
      match getAttr "src" a with
      | none => []
      | some src =>
        match lookupFile ctx (fullPathOf ctx baseDir src) with
        | none => []
        | some bytes => [(a, fullPathOf ctx baseDir src, bytes)]
    else [])

/-- The media elements left unconverted (no src attribute, or the resolved
path is missing from the file system): their attribute lists in document
order. -/
def unconvMedia (ctx : MediaCtx) (baseDir : String) :
    Forest → List (List (String × String)) :=
  elemsF (fun t a =>
    if t ∈ mediaTags then
      match getAttr "src" a with
      | none => [a]
      | some src =>
        match lookupFile ctx (fullPathOf ctx baseDir src) with
        | none => [a]
        | some _ => []
    else [])

/-- The payload text of the data child of a resource element. -/
def resourceData (e : EElem) : String :=
  match e.children with
  | Forest.elem _ _ (Forest.text s _) _ => s
  | _ => ""

/-- Every media element of the forest is childless, as img, video, audio
and embed elements are in the HTML that pandoc emits (img is void, and the
others carry no element content in markdown output). -/
def childlessMediaB : Forest → Bool
  | Forest.nil => true
  | Forest.text _ r => childlessMediaB r
  | Forest.elem t _ c r =>
    (if t ∈ mediaTags then decide (c = Forest.nil) else true)
      && childlessMediaB c && childlessMediaB r

/-- The forest contains no en-media element yet (true of any parsed pandoc
output, which never emits the Evernote-private tag). -/
def noEnMediaB : Forest → Bool
  | Forest.nil => true
  | Forest.text _ r => noEnMediaB r
  | Forest.elem t _ c r =>
    decide (t ≠ "en-media") && noEnMediaB c && noEnMediaB r

/-! Generic facts about the collectors. -/

theorem elemsF_fapp {β : Type} (fe : String → List (String × String) → List β)
    (f g : Forest) : elemsF fe (fapp f g) = elemsF fe f ++ elemsF fe g := by
  induction f with
  | nil => simp [fapp, elemsF]
  | text s r ih => simp [fapp, elemsF, ih]
  | elem t a c r ihc ihr => simp [fapp, elemsF, ihr]

theorem textsF_fapp (f g : Forest) : textsF (fapp f g) = textsF f ++ textsF g := by
  induction f with
  | nil => simp [fapp, textsF]
  | text s r ih => simp [fapp, textsF, ih]
  | elem t a c r ihc ihr => simp [fapp, textsF, ihr]

theorem elemsF_map {β γ : Type} (g : β → γ) (fe : String → List (String × String) → List β)
    (f : Forest) : (elemsF fe f).map g = elemsF (fun t a => (fe t a).map g) f := by
  induction f with
  | nil => simp [elemsF]
  | text s r ih => simp [elemsF, ih]
  | elem t a c r ihc ihr => simp [elemsF, ihc, ihr]

theorem mem_elemsF {β : Type} {x : β} {fe : String → List (String × String) → List β}
    {f : Forest} (h : x ∈ elemsF fe f) : ∃ t a, x ∈ fe t a := by
  induction f with
  | nil => simp [elemsF] at h
  | text s r ih => exact ih h
  | elem t a c r ihc ihr =>
    simp only [elemsF, List.mem_append] at h
    rcases h with (h | h) | h
    · exact ⟨t, a, h⟩
    · exact ihc h
    · exact ihr h

theorem elemsF_constNil {β : Type} (f : Forest) :
    elemsF (fun _ _ => ([] : List β)) f = [] := by
  induction f with
  | nil => simp [elemsF]
  | text s r ih => simp [elemsF, ih]
  | elem t a c r ihc ihr => simp [elemsF, ihc, ihr]

/-! Behaviour of the sanitizer passes under the collectors. -/

theorem textsF_stripAttrs (bad : List String) (f : Forest) :
    textsF (stripAttrsF bad f) = textsF f := by
  induction f with
  | nil => rfl
  | text s r ih => simp [stripAttrsF, textsF, ih]
  | elem t a c r ihc ihr => simp [stripAttrsF, textsF, ihc, ihr]

theorem textsF_stripTags (bad : List String) (f : Forest) :
    textsF (stripTagsF bad f) = textsF f := by
  induction f with
  | nil => rfl
  | text s r ih => simp [stripTagsF, textsF, ih]
  | elem t a c r ihc ihr =>
    by_cases h : t ∈ bad
    · simp [stripTagsF, h, textsF_fapp, textsF, ihc, ihr]
    · simp [stripTagsF, h, textsF, ihc, ihr]

theorem elemsF_stripAttrs {β : Type} (fe : String → List (String × String) → List β)
    (bad : List String) (f : Forest) :
    elemsF fe (stripAttrsF bad f) = elemsF (fun t a => fe t (stripAttrList bad a)) f := by
  induction f with
  | nil => rfl
  | text s r ih => simp [stripAttrsF, elemsF, ih]
  | elem t a c r ihc ihr => simp [stripAttrsF, elemsF, ihc, ihr]

theorem elemsF_stripTags {β : Type} (fe : String → List (String × String) → List β)
    (bad : List String) (f : Forest) :
    elemsF fe (stripTagsF bad f)
      = elemsF (fun t a => if t ∈ bad then [] else fe t a) f := by
  induction f with
  | nil => rfl
  | text s r ih => simp [stripTagsF, elemsF, ih]
  | elem t a c r ihc ihr =>
    by_cases h : t ∈ bad
    · simp [stripTagsF, h, elemsF_fapp, elemsF, ihc, ihr]
    · simp [stripTagsF, h, elemsF, ihc, ihr]

theorem allElems_stripTags_good (bad : List String) (f : Forest) :
    ∀ x ∈ allElems (stripTagsF bad f), x.1 ∉ bad := by
  intro x hx
  rw [allElems, elemsF_stripTags] at hx
  obtain ⟨t, a, ht⟩ := mem_elemsF hx
  by_cases h : t ∈ bad
  · simp [h] at ht
  · simp [h] at ht
    subst ht
    exact h

theorem stripTags_id_of_good (bad : List String) (f : Forest)
    (h : ∀ x ∈ allElems f, x.1 ∉ bad) : stripTagsF bad f = f := by
  induction f with
  | nil => rfl
  | text s r ih =>
    simp only [allElems, elemsF] at h
    simp [stripTagsF, ih h]
  | elem t a c r ihc ihr =>
    have ht : t ∉ bad := h (t, a) (by simp [allElems, elemsF])
    have hc : ∀ x ∈ allElems c, x.1 ∉ bad := by
      intro x hx
      refine h x ?_
      simp only [allElems, elemsF, List.mem_append, List.mem_singleton]
      exact Or.inl (Or.inr hx)
    have hr : ∀ x ∈ allElems r, x.1 ∉ bad := by
      intro x hx
      refine h x ?_
      simp only [allElems, elemsF, List.mem_append, List.mem_singleton]
      exact Or.inr hx
    simp [stripTagsF, ht, ihc hc, ihr hr]

theorem stripTagsF_idem (bad : List String) (f : Forest) :
    stripTagsF bad (stripTagsF bad f) = stripTagsF bad f :=
  stripTags_id_of_good bad _ (allElems_stripTags_good bad f)

theorem stripAttrList_idem (bad : List String) (a : List (String × String)) :
    stripAttrList bad (stripAttrList bad a) = stripAttrList bad a := by
  simp [stripAttrList, List.filter_filter]

theorem stripAttrsF_idem (bad : List String) (f : Forest) :
    stripAttrsF bad (stripAttrsF bad f) = stripAttrsF bad f := by
  induction f with
  | nil => rfl
  | text s r ih => simp [stripAttrsF, ih]
  | elem t a c r ihc ihr => simp [stripAttrsF, stripAttrList_idem, ihc, ihr]

theorem stripAttrsF_fapp (bad : List String) (f g : Forest) :
    stripAttrsF bad (fapp f g) = fapp (stripAttrsF bad f) (stripAttrsF bad g) := by
  induction f with
  | nil => rfl
  | text s r ih => simp [fapp, stripAttrsF, ih]
  | elem t a c r ihc ihr => simp [fapp, stripAttrsF, ihr]

theorem stripAttrs_stripTags_comm (A T : List String) (f : Forest) :
    stripAttrsF A (stripTagsF T f) = stripTagsF T (stripAttrsF A f) := by
  induction f with
  | nil => rfl
  | text s r ih => simp [stripAttrsF, stripTagsF, ih]
  | elem t a c r ihc ihr =>
    by_cases h : t ∈ T
    · simp [stripTagsF, stripAttrsF, h, stripAttrsF_fapp, ihc, ihr]
    · simp [stripTagsF, stripAttrsF, h, ihc, ihr]

theorem elemsF_congr {β : Type} {fe fe2 : String → List (String × String) → List β}
    (h : ∀ t a, fe t a = fe2 t a) (f : Forest) : elemsF fe f = elemsF fe2 f := by
  have hf : fe = fe2 := funext fun t => funext fun a => h t a
  rw [hf]

/-- C3: on any en-note fragment, strip_note_el removes every element whose
tag is in INVALID_TAGS while keeping all character data and keeping the
surviving elements in their original preorder positions, each with exactly
the attributes whose names are outside INVALID_ATTRIBUTES, in their
original order; the root element stays, with its attributes filtered the
same way. -/
theorem c3_sanitizer_strip_behavior (ra : List (String × String)) (c : Forest) :
    (∀ x ∈ allElems (strip_note_el ⟨"en-note", ra, c⟩).children, x.1 ∉ INVALID_TAGS) ∧
    textsF (strip_note_el ⟨"en-note", ra, c⟩).children = textsF c ∧
    allElems (strip_note_el ⟨"en-note", ra, c⟩).children
      = (survivingElems INVALID_TAGS c).map
          (fun p => (p.1, stripAttrList INVALID_ATTRIBUTES p.2)) ∧
    (strip_note_el ⟨"en-note", ra, c⟩).tag = "en-note" ∧
    (strip_note_el ⟨"en-note", ra, c⟩).attrs = stripAttrList INVALID_ATTRIBUTES ra := by
  have hch : (strip_note_el ⟨"en-note", ra, c⟩).children
      = stripTagsF INVALID_TAGS (stripAttrsF INVALID_ATTRIBUTES c) := rfl
  refine ⟨?_, ?_, ?_, rfl, rfl⟩
  · rw [hch]
    exact allElems_stripTags_good INVALID_TAGS _
  · rw [hch, textsF_stripTags, textsF_stripAttrs]
  · rw [hch, allElems, elemsF_stripTags, elemsF_stripAttrs, survivingElems, elemsF_map]
    refine elemsF_congr (fun t a => ?_) c
    by_cases h : t ∈ INVALID_TAGS
    · simp [h]
    · simp [h]

/-- C6: strip_note_el is idempotent; a second application of the
attribute-and-tag stripping changes nothing. -/
theorem c6_sanitizer_idempotent (e : EElem) :
    strip_note_el (strip_note_el e) = strip_note_el e := by
  obtain ⟨t, a, c⟩ := e
  simp only [strip_note_el]
  rw [stripAttrList_idem]
  refine congrArg (EElem.mk t (stripAttrList INVALID_ATTRIBUTES a)) ?_
  calc
    stripTagsF INVALID_TAGS (stripAttrsF INVALID_ATTRIBUTES
        (stripTagsF INVALID_TAGS (stripAttrsF INVALID_ATTRIBUTES c)))
      = stripTagsF INVALID_TAGS (stripTagsF INVALID_TAGS
          (stripAttrsF INVALID_ATTRIBUTES (stripAttrsF INVALID_ATTRIBUTES c))) := by
        rw [stripAttrs_stripTags_comm]
    _ = stripTagsF INVALID_TAGS (stripTagsF INVALID_TAGS
          (stripAttrsF INVALID_ATTRIBUTES c)) := by
        rw [stripAttrsF_idem]
    _ = stripTagsF INVALID_TAGS (stripAttrsF INVALID_ATTRIBUTES c) :=
        stripTagsF_idem _ _

/-! Behaviour of the media passes under the collectors. -/

theorem elemsF_dropLeadingText {β : Type} (fe : String → List (String × String) → List β)
    (f : Forest) : elemsF fe (dropLeadingText f) = elemsF fe f := by
  induction f with
  | nil => rfl
  | text s r ih => simpa [dropLeadingText, elemsF] using ih
  | elem t a c r ihc ihr => rfl

theorem elemsF_stripFigures {β : Type} (fe : String → List (String × String) → List β)
    (hfig : ∀ a, fe "figure" a = []) (f : Forest) :
    elemsF fe (stripFiguresF f) = elemsF fe f := by
  induction f with
  | nil => rfl
  | text s r ih => simp [stripFiguresF, elemsF, ih]
  | elem t a c r ihc ihr =>
    by_cases h : t = "figure"
    · subst h
      simp [stripFiguresF, elemsF_fapp, elemsF_dropLeadingText, elemsF, ihc, ihr, hfig]
    · simp [stripFiguresF, h, elemsF, ihc, ihr]

theorem figureElems_stripFigures (f : Forest) : figureElems (stripFiguresF f) = [] := by
  induction f with
  | nil => rfl
  | text s r ih => simpa [stripFiguresF, figureElems, elemsF] using ih
  | elem t a c r ihc ihr =>
    by_cases h : t = "figure"
    · subst h
      simp only [stripFiguresF, if_pos rfl, figureElems] at ihc ihr ⊢
      simp [elemsF_fapp, elemsF_dropLeadingText, ihc, ihr]
    · simp only [stripFiguresF, if_neg h, figureElems, elemsF] at ihc ihr ⊢
      simp [h, ihc, ihr]

theorem elemsF_rename {β : Type} (fe : String → List (String × String) → List β)
    (f : Forest) :
    elemsF fe (renameMediaF f) = elemsF (fun t a => fe (renameTag t) a) f := by
  induction f with
  | nil => rfl
  | text s r ih => simp [renameMediaF, elemsF, ih]
  | elem t a c r ihc ihr => simp [renameMediaF, elemsF, ihc, ihr]

theorem renameTag_of_media {t : String} (h : t ∈ mediaTags) : renameTag t = "img" := by
  simp only [mediaTags, List.mem_cons, List.mem_singleton, List.not_mem_nil, or_false] at h
  rcases h with rfl | rfl | rfl | rfl <;> rfl

theorem renameTag_notvae (t : String) : renameTag t ∉ vaeTags := by
  by_cases h : t ∈ vaeTags
  · simp only [renameTag, if_pos h]
    decide
  · simp only [renameTag, if_neg h]
    exact h

theorem renameTag_media_iff (t : String) : renameTag t ∈ mediaTags ↔ t ∈ mediaTags := by
  by_cases h : t ∈ vaeTags
  · constructor
    · intro _
      simp only [vaeTags, List.mem_cons, List.mem_singleton, List.not_mem_nil, or_false] at h
      rcases h with rfl | rfl | rfl <;> simp [mediaTags]
    · intro _
      simp [renameTag, h, mediaTags]
  · simp [renameTag, h]

theorem renameTag_eq_iff (t u : String) (hu : u ∉ vaeTags) (huimg : u ≠ "img") :
    renameTag t = u ↔ t = u := by
  by_cases h : t ∈ vaeTags
  · simp only [renameTag, if_pos h]
    constructor
    · intro he
      exact absurd he.symm huimg
    · intro he
      subst he
      exact absurd h hu
  · simp [renameTag, h]

/-- C4: after the per-element media pass, the figure-removal pass deletes
every figure element while keeping every other element, with its tag and
attributes, at its original preorder position (children spliced in place,
order preserved); the tree returned by add_resources therefore contains no
figure element either. -/
theorem c4_figure_splice (f : Forest) (ctx : MediaCtx) (baseDir : String) (e : EElem) :
    figureElems (stripFiguresF f) = [] ∧
    nonFigureElems (stripFiguresF f) = nonFigureElems f ∧
    figureElems (add_resources ctx baseDir e).1.children = [] := by
  refine ⟨figureElems_stripFigures f, ?_, ?_⟩
  · refine elemsF_stripFigures _ (fun a => ?_) f
    simp
  · have hch : (add_resources ctx baseDir e).1.children
        = renameMediaF (stripFiguresF (replaceMediaF ctx baseDir e.children)) := rfl
    rw [hch, figureElems, elemsF_rename]
    have hpt : ∀ (t : String) (a : List (String × String)),
        (if renameTag t = "figure" then [(renameTag t, a)] else [])
          = (if t = "figure" then [("figure", a)] else []) := by
      intro t a
      by_cases h : t = "figure"
      · subst h
        simp [renameTag, vaeTags]
      · have : renameTag t ≠ "figure" :=
          fun he => h ((renameTag_eq_iff t "figure" (by decide) (by decide)).mp he)
        simp [h, this]
    rw [elemsF_congr hpt]
    have := figureElems_stripFigures (replaceMediaF ctx baseDir e.children)
    rw [figureElems] at this
    calc
      elemsF (fun t a => if t = "figure" then [("figure", a)] else [])
          (stripFiguresF (replaceMediaF ctx baseDir e.children))
        = elemsF (fun t a => if t = "figure" then [(t, a)] else [])
            (stripFiguresF (replaceMediaF ctx baseDir e.children)) := by
          refine elemsF_congr (fun t a => ?_) _
          by_cases h : t = "figure" <;> simp [h]
      _ = [] := this

theorem getAttr_hash_enMediaAttrs (ctx : MediaCtx) (mime : String)
    (a : List (String × String)) (bytes : List Nat) :
    getAttr "hash" (enMediaAttrs ctx mime a bytes) = some (ctx.md5hex bytes) := rfl

theorem ne_enmedia_of_media {t : String} (h : t ∈ mediaTags) : t ≠ "en-media" := by
  simp only [mediaTags, List.mem_cons, List.mem_singleton, List.not_mem_nil, or_false] at h
  rcases h with rfl | rfl | rfl | rfl <;> decide

theorem enMediaHashes_replaceMedia (ctx : MediaCtx) (baseDir : String) (f : Forest)
    (h1 : childlessMediaB f = true) (h2 : noEnMediaB f = true) :
    enMediaHashes (replaceMediaF ctx baseDir f)
      = (foundMedia ctx baseDir f).map (fun x => ctx.md5hex x.2.2) := by
  induction f with
  | nil => rfl
  | text s r ih =>
    simp only [childlessMediaB] at h1
    simp only [noEnMediaB] at h2
    simpa [replaceMediaF, enMediaHashes, foundMedia, elemsF] using ih h1 h2
  | elem t a c r ihc ihr =>
    simp only [childlessMediaB, Bool.and_eq_true] at h1
    obtain ⟨⟨hif, h1c⟩, h1r⟩ := h1
    simp only [noEnMediaB, Bool.and_eq_true, decide_eq_true_eq] at h2
    obtain ⟨⟨hne, h2c⟩, h2r⟩ := h2
    by_cases hm : t ∈ mediaTags
    · rw [if_pos hm] at hif
      have hcnil : c = Forest.nil := by simpa using hif
      subst hcnil
      cases hsrc : getAttr "src" a with
      | none =>
        simp only [enMediaHashes, foundMedia, replaceMediaF, if_pos hm, hsrc, elemsF]
        rw [enMediaHashes, foundMedia] at ihr
        simp [ihr h1r h2r, hne]
      | some src =>
        cases hlk : lookupFile ctx (fullPathOf ctx baseDir src) with
        | none =>
          simp only [enMediaHashes, foundMedia, replaceMediaF, if_pos hm, hsrc, hlk, elemsF]
          rw [enMediaHashes, foundMedia] at ihr
          simp [ihr h1r h2r, hne]
        | some bytes =>
          simp only [enMediaHashes, foundMedia, replaceMediaF, if_pos hm, hsrc, hlk, elemsF]
          rw [enMediaHashes, foundMedia] at ihr
          simp [ihr h1r h2r, getAttr_hash_enMediaAttrs]
    · simp only [enMediaHashes, foundMedia, replaceMediaF, if_neg hm, elemsF]
      rw [enMediaHashes, foundMedia] at ihc ihr
      simp [ihc h1c h2c, ihr h1r h2r, hne, hm]

theorem collectResources_eq_found (ctx : MediaCtx) (baseDir : String) (f : Forest) :
    collectResources ctx baseDir f
      = (foundMedia ctx baseDir f).map
          (fun x => mkResource ctx (mimeOf ctx x.2.1) x.1 x.2.2) := by
  induction f with
  | nil => rfl
  | text s r ih => simpa [collectResources, foundMedia, elemsF] using ih
  | elem t a c r ihc ihr =>
    rw [foundMedia] at ihc ihr
    by_cases hm : t ∈ mediaTags
    · cases hsrc : getAttr "src" a with
      | none =>
        simp [collectResources, foundMedia, elemsF, if_pos hm, hsrc, ihc, ihr]
      | some src =>
        cases hlk : lookupFile ctx (fullPathOf ctx baseDir src) with
        | none =>
          simp [collectResources, foundMedia, elemsF, if_pos hm, hsrc, hlk, ihc, ihr]
        | some bytes =>
          simp [collectResources, foundMedia, elemsF, if_pos hm, hsrc, hlk, ihc, ihr]
    · simp [collectResources, foundMedia, elemsF, if_neg hm, ihc, ihr]

theorem imgElems_replaceMedia (ctx : MediaCtx) (baseDir : String) (f : Forest)
    (h1 : childlessMediaB f = true) :
    elemsF (fun t a => if t ∈ mediaTags then [("img", a)] else [])
        (replaceMediaF ctx baseDir f)
      = (unconvMedia ctx baseDir f).map (fun a => ("img", a)) := by
  induction f with
  | nil => rfl
  | text s r ih =>
    simp only [childlessMediaB] at h1
    simpa [replaceMediaF, unconvMedia, elemsF] using ih h1
  | elem t a c r ihc ihr =>
    simp only [childlessMediaB, Bool.and_eq_true] at h1
    obtain ⟨⟨hif, h1c⟩, h1r⟩ := h1
    rw [unconvMedia] at ihc ihr
    by_cases hm : t ∈ mediaTags
    · rw [if_pos hm] at hif
      have hcnil : c = Forest.nil := by simpa using hif
      subst hcnil
      cases hsrc : getAttr "src" a with
      | none =>
        simp [replaceMediaF, unconvMedia, elemsF, if_pos hm, hsrc, ihr h1r]
      | some src =>
        cases hlk : lookupFile ctx (fullPathOf ctx baseDir src) with
        | none =>
          simp [replaceMediaF, unconvMedia, elemsF, if_pos hm, hsrc, hlk, ihr h1r]
        | some bytes =>
          have : ("en-media" : String) ∉ mediaTags := by decide
          simp [replaceMediaF, unconvMedia, elemsF, if_pos hm, hsrc, hlk, ihr h1r, this]
    · simp [replaceMediaF, unconvMedia, elemsF, if_neg hm, ihc h1c, ihr h1r]

/-- C1 (amended): for an en-note fragment whose media elements are
childless and which holds no en-media element yet, add_resources produces
exactly one resource per media element whose decoded src resolves,
relative to the base directory, to an existing file, accumulated in the
order of the left-to-right depth-first scan, the data payload of the k-th
resource being the base64 encoding of the bytes of the k-th such file; the
tree holds exactly one en-media element per such media element, in the
same order, its hash attribute being the MD5 digest of the same bytes.
(Distinct elements whose files carry identical bytes receive identical
hash attributes, so the en-media element is located by position, not by
hash alone.) -/
theorem c1_resource_enmedia_correspondence (ctx : MediaCtx) (baseDir : String)
    (ra : List (String × String)) (c : Forest)
    (h1 : childlessMediaB c = true) (h2 : noEnMediaB c = true) :
    (add_resources ctx baseDir ⟨"en-note", ra, c⟩).2.map resourceData
      = (foundMedia ctx baseDir c).map (fun x => ctx.b64encode x.2.2) ∧
    enMediaHashes (add_resources ctx baseDir ⟨"en-note", ra, c⟩).1.children
      = (foundMedia ctx baseDir c).map (fun x => ctx.md5hex x.2.2) ∧
    (add_resources ctx baseDir ⟨"en-note", ra, c⟩).2.length
      = (foundMedia ctx baseDir c).length := by
  have hres : (add_resources ctx baseDir ⟨"en-note", ra, c⟩).2
      = collectResources ctx baseDir c := rfl
  have hch : (add_resources ctx baseDir ⟨"en-note", ra, c⟩).1.children
      = renameMediaF (stripFiguresF (replaceMediaF ctx baseDir c)) := rfl
  refine ⟨?_, ?_, ?_⟩
  · rw [hres, collectResources_eq_found, List.map_map]
    rfl
  · rw [hch, enMediaHashes, elemsF_rename]
    have hpt : ∀ (t : String) (a : List (String × String)),
        (if renameTag t = "en-media" then (getAttr "hash" a).toList else [])
          = (if t = "en-media" then (getAttr "hash" a).toList else []) := by
      intro t a
      by_cases h : t = "en-media"
      · subst h
        simp [renameTag, vaeTags]
      · have : renameTag t ≠ "en-media" :=
          fun he => h ((renameTag_eq_iff t "en-media" (by decide) (by decide)).mp he)
        simp [h, this]
    rw [elemsF_congr hpt, elemsF_stripFigures _ (fun a => by simp)]
    have := enMediaHashes_replaceMedia ctx baseDir c h1 h2
    rw [enMediaHashes] at this
    exact this
  · rw [hres, collectResources_eq_found, List.length_map]

/-- C5: for an en-note fragment whose media elements are childless, the
output of add_resources contains no video, audio or embed element; every
media element that was not converted (src absent, or the resolved path
missing from the file system) is retained in the content as an element now
tagged img, with its attributes and its document-order position among
media elements preserved; and the resource list has exactly one entry per
successfully resolved media element, so no resource is produced for a
missing file. -/
theorem c5_missing_media_degrade (ctx : MediaCtx) (baseDir : String)
    (ra : List (String × String)) (c : Forest) (h1 : childlessMediaB c = true) :
    vaeElems (add_resources ctx baseDir ⟨"en-note", ra, c⟩).1.children = [] ∧
    mediaElems (add_resources ctx baseDir ⟨"en-note", ra, c⟩).1.children
      = (unconvMedia ctx baseDir c).map (fun a => ("img", a)) ∧
    (add_resources ctx baseDir ⟨"en-note", ra, c⟩).2.length
      = (foundMedia ctx baseDir c).length := by
  have hch : (add_resources ctx baseDir ⟨"en-note", ra, c⟩).1.children
      = renameMediaF (stripFiguresF (replaceMediaF ctx baseDir c)) := rfl
  have hres : (add_resources ctx baseDir ⟨"en-note", ra, c⟩).2
      = collectResources ctx baseDir c := rfl
  refine ⟨?_, ?_, ?_⟩
  · rw [hch, vaeElems, elemsF_rename]
    have hpt : ∀ (t : String) (a : List (String × String)),
        (if renameTag t ∈ vaeTags then [(renameTag t, a)] else [])
          = ([] : List (String × List (String × String))) := by
      intro t a
      simp [renameTag_notvae t]
    rw [elemsF_congr hpt, elemsF_constNil]
  · rw [hch, mediaElems, elemsF_rename]
    have hpt : ∀ (t : String) (a : List (String × String)),
        (if renameTag t ∈ mediaTags then [(renameTag t, a)] else [])
          = (if t ∈ mediaTags then [("img", a)] else []) := by
      intro t a
      by_cases h : t ∈ mediaTags
      · rw [if_pos ((renameTag_media_iff t).mpr h), renameTag_of_media h, if_pos h]
      · rw [if_neg (fun hh => h ((renameTag_media_iff t).mp hh)), if_neg h]
    rw [elemsF_congr hpt,
      elemsF_stripFigures _ (fun a => by simp [show ("figure" : String) ∉ mediaTags by decide]),
      imgElems_replaceMedia ctx baseDir c h1]
  · rw [hres, collectResources_eq_found, List.length_map]

/-! The export builder: sorting, the per-file loop, exit codes. -/

theorem ltChars_asymm {a b : List Char} (h : ltChars a b = true) : ltChars b a = false := by
  induction a generalizing b with
  | nil =>
    cases b with
    | nil => simp [ltChars] at h
    | cons d s => simp [ltChars]
  | cons c r ih =>
    cases b with
    | nil => simp [ltChars] at h
    | cons d s =>
      simp only [ltChars] at h ⊢
      by_cases h1 : c.toNat < d.toNat
      · rw [if_neg (by omega), if_pos h1]
      · by_cases h2 : d.toNat < c.toNat
        · rw [if_neg h1, if_pos h2] at h
          exact absurd h (by simp)
        · rw [if_neg h1, if_neg h2] at h
          rw [if_neg h2, if_neg h1]
          exact ih h

theorem not_ltChars_trans : ∀ (a b c : List Char), ltChars b a = false →
    ltChars c b = false → ltChars c a = false := by
  intro a
  induction a with
  | nil =>
    intro b c h1 h2
    cases c <;> rfl
  | cons x as ih =>
    intro b c h1 h2
    cases c with
    | nil =>
      cases b with
      | nil => simp [ltChars] at h1
      | cons y bs => simp [ltChars] at h2
    | cons z cs =>
      cases b with
      | nil => simp [ltChars] at h1
      | cons y bs =>
        simp only [ltChars] at h1 h2 ⊢
        by_cases hyx : y.toNat < x.toNat
        · rw [if_pos hyx] at h1
          exact absurd h1 (by simp)
        · by_cases hzy : z.toNat < y.toNat
          · rw [if_pos hzy] at h2
            exact absurd h2 (by simp)
          · rw [if_neg (by omega)]
            by_cases hxz : x.toNat < z.toNat
            · rw [if_pos hxz]
            · rw [if_neg hxz]
              rw [if_neg hyx, if_neg (by omega)] at h1
              rw [if_neg hzy, if_neg (by omega)] at h2
              exact ih bs cs h1 h2

theorem insertSorted_perm (x : String) (l : List String) :
    List.Perm (insertSorted x l) (x :: l) := by
  induction l with
  | nil => exact List.Perm.refl _
  | cons y r ih =>
    cases hlt : ltChars (sortKey y).data (sortKey x).data with
    | true =>
      simp only [insertSorted, hlt, if_true]
      exact (ih.cons y).trans (List.Perm.swap x y r)
    | false =>
      simp only [insertSorted, hlt]
      exact List.Perm.refl _

theorem sortFiles_perm (l : List String) : List.Perm (sortFiles l) l := by
  induction l with
  | nil => exact List.Perm.refl _
  | cons x r ih => exact (insertSorted_perm x (sortFiles r)).trans (ih.cons x)

theorem sortFiles_length (l : List String) : (sortFiles l).length = l.length :=
  (sortFiles_perm l).length_eq

theorem mem_insertSorted {z x : String} {l : List String} (h : z ∈ insertSorted x l) :
    z = x ∨ z ∈ l := by
  have := (insertSorted_perm x l).mem_iff.mp h
  simpa using this

theorem pairwise_insertSorted (x : String) (l : List String)
    (h : l.Pairwise keyLe) : (insertSorted x l).Pairwise keyLe := by
  induction l with
  | nil => simp [insertSorted]
  | cons y r ih =>
    rw [List.pairwise_cons] at h
    obtain ⟨hy, hr⟩ := h
    cases hlt : ltChars (sortKey y).data (sortKey x).data with
    | true =>
      simp only [insertSorted, hlt, if_true]
      rw [List.pairwise_cons]
      refine ⟨?_, ih hr⟩
      intro z hz
      rcases mem_insertSorted hz with rfl | hz2
      · exact ltChars_asymm hlt
      · exact hy z hz2
    | false =>
      have heq : insertSorted x (y :: r) = x :: y :: r := by
        simp [insertSorted, hlt]
      rw [heq, List.pairwise_cons]
      refine ⟨?_, ?_⟩
      · intro z hz
        rcases List.mem_cons.mp hz with rfl | hz2
        · exact hlt
        · exact not_ltChars_trans _ _ _ hlt (hy z hz2)
      · rw [List.pairwise_cons]
        exact ⟨hy, hr⟩

theorem sortFiles_pairwise (l : List String) : (sortFiles l).Pairwise keyLe := by
  induction l with
  | nil => simp [sortFiles]
  | cons x r ih => exact pairwise_insertSorted x (sortFiles r) ih

theorem processFiles_fst (p : String → Option EElem) (l : List String) :
    (processFiles p l).1 = l.filterMap p := by
  induction l with
  | nil => rfl
  | cons f r ih =>
    simp only [processFiles]
    cases hp : p f <;> simp [hp, ih, List.filterMap_cons]

theorem processFiles_snd (p : String → Option EElem) (l : List String) :
    (processFiles p l).2 = l.filter (fun f => (p f).isNone) := by
  induction l with
  | nil => rfl
  | cons f r ih =>
    simp only [processFiles]
    cases hp : p f <;> simp [hp, ih]

theorem processFiles_length (p : String → Option EElem) (l : List String) :
    (processFiles p l).1.length + (processFiles p l).2.length = l.length := by
  induction l with
  | nil => rfl
  | cons f r ih =>
    simp only [processFiles]
    cases hp : p f <;> simp [hp] <;> omega

theorem filterMap_filter_length (p : String → Option EElem) (l : List String) :
    (l.filterMap p).length + (l.filter (fun f => (p f).isNone)).length = l.length := by
  have h := processFiles_length p l
  rwa [processFiles_fst, processFiles_snd] at h

theorem filter_isNone_eq_nil (p : String → Option EElem) (l : List String)
    (h : ∀ f ∈ l, (p f).isSome = true) :
    l.filter (fun f => (p f).isNone) = [] := by
  induction l with
  | nil => rfl
  | cons f r ih =>
    have hf := h f (by simp)
    have hr : ∀ g ∈ r, (p g).isSome = true := by
      intro g hg
      exact h g (by simp [hg])
    cases hp : p f with
    | none => rw [hp] at hf; simp at hf
    | some n => simp [hp, ih hr]

theorem write_enex_spec (p : String → Option EElem) (files : List String)
    (h : files ≠ []) :
    write_enex p files =
      if ((sortFiles files).filter (fun f => (p f).isNone)).length > 0 then
        ⟨true, (sortFiles files).filterMap p,
          (sortFiles files).filter (fun f => (p f).isNone), 1⟩
      else if ((sortFiles files).filterMap p).length > 0 then
        ⟨true, (sortFiles files).filterMap p,
          (sortFiles files).filter (fun f => (p f).isNone), 0⟩
      else
        ⟨true, (sortFiles files).filterMap p,
          (sortFiles files).filter (fun f => (p f).isNone), 2⟩ := by
  have hlen : ¬ files.length ≤ 0 := by
    have := List.length_pos.mpr h
    omega
  simp only [write_enex, if_neg hlen, processFiles_fst, processFiles_snd]

/-- C2 (amended): with no input files, write_enex exits 1 and writes no
output; with input files present the output is always written and holds
exactly the successfully converted notes; a nonempty error list exits 1
even when zero notes succeeded (the error-list check precedes the count
check, so the zero-success exit code is 1, not 2 - exit 2 would require
zero successes with an empty error list, which cannot happen when files
are present); an empty error list means a positive count and a normal exit
0. -/
theorem c2_exit_code_policy (p : String → Option EElem) (files : List String) :
    (files = [] → write_enex p files = ⟨false, [], [], 1⟩) ∧
    (files ≠ [] →
      (write_enex p files).wroteOutput = true ∧
      (write_enex p files).notes = (sortFiles files).filterMap p ∧
      ((write_enex p files).errors ≠ [] → (write_enex p files).exitCode = 1) ∧
      ((write_enex p files).errors = [] →
        (write_enex p files).exitCode = 0 ∧ (write_enex p files).notes ≠ []) ∧
      ((write_enex p files).notes = [] → (write_enex p files).exitCode = 1)) := by
  constructor
  · intro h
    subst h
    rfl
  · intro h
    rw [write_enex_spec p files h]
    have hcount : ((sortFiles files).filterMap p).length
        + ((sortFiles files).filter (fun f => (p f).isNone)).length
        = files.length := by
      rw [← sortFiles_length files]
      exact filterMap_filter_length p (sortFiles files)
    have hpos : 0 < files.length := List.length_pos.mpr h
    by_cases he : ((sortFiles files).filter (fun f => (p f).isNone)).length > 0
    · rw [if_pos he]
      dsimp only
      refine ⟨rfl, rfl, fun _ => rfl, ?_, fun _ => rfl⟩
      intro habs
      rw [habs] at he
      simp at he
    · rw [if_neg he]
      have hn : ((sortFiles files).filterMap p).length > 0 := by omega
      rw [if_pos hn]
      dsimp only
      refine ⟨rfl, rfl, ?_, ?_, ?_⟩
      · intro habs
        have hE : (sortFiles files).filter (fun f => (p f).isNone) = [] := by
          have hz : ((sortFiles files).filter (fun f => (p f).isNone)).length = 0 := by
            omega
          exact List.length_eq_zero.mp hz
        exact absurd hE habs
      · intro _
        exact ⟨rfl, List.length_pos.mp hn⟩
      · intro habs
        rw [habs] at hn
        simp at hn

/-- C7: when every input file converts successfully, the export holds
exactly one note per file, ordered by the case-insensitive filename sort
of the inputs (the sorted list is a permutation of the inputs, pairwise
ordered under the lower-cased key), and the run exits 0. -/
theorem c7_all_success_export (p : String → Option EElem) (files : List String)
    (h1 : files ≠ []) (h2 : ∀ f ∈ files, (p f).isSome = true) :
    (write_enex p files).exitCode = 0 ∧
    (write_enex p files).notes.length = files.length ∧
    (write_enex p files).notes = (sortFiles files).filterMap p ∧
    (sortFiles files).Pairwise keyLe ∧
    List.Perm (sortFiles files) files := by
  have h2s : ∀ f ∈ sortFiles files, (p f).isSome = true := by
    intro f hf
    exact h2 f ((sortFiles_perm files).mem_iff.mp hf)
  have herr : (sortFiles files).filter (fun f => (p f).isNone) = [] :=
    filter_isNone_eq_nil p (sortFiles files) h2s
  have hcount : ((sortFiles files).filterMap p).length = files.length := by
    have := filterMap_filter_length p (sortFiles files)
    rw [herr] at this
    simpa [sortFiles_length] using this
  have hpos : 0 < files.length := List.length_pos.mpr h1
  rw [write_enex_spec p files h1, herr]
  rw [if_neg (by simp), if_pos (by omega)]
  dsimp only
  exact ⟨rfl, hcount, rfl, sortFiles_pairwise files, sortFiles_perm files⟩

/-- C10: the per-file loop handles every input exactly once - the notes
are precisely the successfully processed files in order, the error list
precisely the failing files in order, so the success count plus the error
count equals the number of input files; consequently, in a run with input
files and an empty error list the success count is positive. -/
theorem c10_loop_invariant (p : String → Option EElem) (files : List String) :
    (processFiles p files).1 = files.filterMap p ∧
    (processFiles p files).2 = files.filter (fun f => (p f).isNone) ∧
    (processFiles p files).1.length + (processFiles p files).2.length = files.length ∧
    (files ≠ [] →
      (write_enex p files).notes.length + (write_enex p files).errors.length
        = files.length) ∧
    (files ≠ [] → (write_enex p files).errors = [] →
      0 < (write_enex p files).notes.length) := by
  refine ⟨processFiles_fst p files, processFiles_snd p files,
    processFiles_length p files, ?_, ?_⟩
  · intro h
    rw [write_enex_spec p files h]
    have hcount : ((sortFiles files).filterMap p).length
        + ((sortFiles files).filter (fun f => (p f).isNone)).length
        = files.length := by
      rw [← sortFiles_length files]
      exact filterMap_filter_length p (sortFiles files)
    by_cases he : ((sortFiles files).filter (fun f => (p f).isNone)).length > 0
    · rw [if_pos he]
      exact hcount
    · rw [if_neg he]
      by_cases hn : ((sortFiles files).filterMap p).length > 0
      · rw [if_pos hn]
        exact hcount
      · rw [if_neg hn]
        exact hcount
  · intro h herr
    rw [write_enex_spec p files h] at herr ⊢
    have hcount : ((sortFiles files).filterMap p).length
        + ((sortFiles files).filter (fun f => (p f).isNone)).length
        = files.length := by
      rw [← sortFiles_length files]
      exact filterMap_filter_length p (sortFiles files)
    have hpos : 0 < files.length := List.length_pos.mpr h
    by_cases he : ((sortFiles files).filter (fun f => (p f).isNone)).length > 0
    · rw [if_pos he] at herr
      dsimp only at herr
      rw [herr] at he
      simp at he
    · have hn : ((sortFiles files).filterMap p).length > 0 := by omega
      rw [if_neg he, if_pos hn]
      exact hn

/-! Trimming: str.strip drops exactly the outer whitespace runs. -/

theorem dropWhile_idem (p : Char → Bool) (l : List Char) :
    (l.dropWhile p).dropWhile p = l.dropWhile p := by
  induction l with
  | nil => rfl
  | cons x t ih =>
    cases h : p x with
    | true => simp [List.dropWhile_cons, h, ih]
    | false => simp [List.dropWhile_cons, h]

theorem head_dropWhile_not (p : Char → Bool) (l : List Char) {x : Char}
    (h : (l.dropWhile p).head? = some x) : p x = false := by
  induction l with
  | nil => simp [List.dropWhile] at h
  | cons y t ih =>
    cases hp : p y with
    | true =>
      rw [List.dropWhile_cons, if_pos (by simp [hp])] at h
      exact ih h
    | false =>
      rw [List.dropWhile_cons, if_neg (by simp [hp])] at h
      simp only [List.head?_cons, Option.some.injEq] at h
      exact h ▸ hp

theorem getLast?_dropWhile (p : Char → Bool) (l : List Char)
    (h : l.dropWhile p ≠ []) : (l.dropWhile p).getLast? = l.getLast? := by
  induction l with
  | nil => simp [List.dropWhile] at h
  | cons y t ih =>
    cases hp : p y with
    | false => rw [List.dropWhile_cons, if_neg (by simp [hp])]
    | true =>
      rw [List.dropWhile_cons, if_pos (by simp [hp])] at h ⊢
      have ht : t ≠ [] := by
        intro habs
        subst habs
        simp [List.dropWhile] at h
      rw [ih h]
      cases t with
      | nil => exact absurd rfl ht
      | cons z s => simp [List.getLast?_cons_cons]

theorem dropWhile_head_false (p : Char → Bool) (l : List Char)
    (h : ∀ x, l.head? = some x → p x = false) : l.dropWhile p = l := by
  cases l with
  | nil => rfl
  | cons y t => simp [List.dropWhile_cons, h y rfl]

theorem stripL_idem (l : List Char) : stripL (stripL l) = stripL l := by
  have hd : (stripL l).dropWhile isPyWs = stripL l := by
    refine dropWhile_head_false _ _ ?_
    intro x hx
    rw [stripL, List.head?_reverse] at hx
    have hne : (l.dropWhile isPyWs).reverse.dropWhile isPyWs ≠ [] := by
      intro habs
      rw [habs] at hx
      simp at hx
    rw [getLast?_dropWhile _ _ hne, List.getLast?_reverse] at hx
    exact head_dropWhile_not isPyWs l hx
  show (((stripL l).dropWhile isPyWs).reverse.dropWhile isPyWs).reverse = stripL l
  rw [hd]
  have h2 : (stripL l).reverse = (l.dropWhile isPyWs).reverse.dropWhile isPyWs := by
    rw [stripL, List.reverse_reverse]
  rw [h2, dropWhile_idem]
  rfl

theorem pyStrip_idem (s : String) : pyStrip (pyStrip s) = pyStrip s := by
  show (⟨stripL (stripL s.data)⟩ : String) = ⟨stripL s.data⟩
  rw [stripL_idem]

/-- C9 (amended): the note title is the stem of the file name with its
leading and trailing whitespace and line-break characters removed - it is
a fixed point of the stripping, so it neither starts nor ends with
whitespace; interior whitespace of the stem is retained. -/
theorem c9_title_trimmed (file : String) :
    titleText (create_title file) = pyStrip (pathStem file) ∧
    pyStrip (titleText (create_title file)) = titleText (create_title file) := by
  refine ⟨rfl, ?_⟩
  show pyStrip (pyStrip (pathStem file)) = pyStrip (pathStem file)
  exact pyStrip_idem _

/-- C9 counterexample: a file stem with interior whitespace yields a title
that still contains a space, so the title is not whitespace-free as the
claim states. -/
theorem c9_interior_whitespace_counterexample :
    titleText (create_title "notes/a b.md") = "a b" ∧
    ' ' ∈ (titleText (create_title "notes/a b.md")).data := by
  exact ⟨rfl, by decide⟩

/-! The assembled note and its tags. -/

theorem collectResources_tag (ctx : MediaCtx) (baseDir : String) (f : Forest) :
    ∀ e ∈ collectResources ctx baseDir f, e.tag = "resource" := by
  intro e he
  rw [collectResources_eq_found] at he
  obtain ⟨x, hx, rfl⟩ := List.mem_map.mp he
  rfl

theorem tagTexts_elemsForest (l : List EElem) (h : ∀ e ∈ l, e.tag ≠ "tag") :
    tagTexts (elemsForest l) = [] := by
  induction l with
  | nil => rfl
  | cons e r ih =>
    have he := h e (by simp)
    have hr : ∀ g ∈ r, g.tag ≠ "tag" := fun g hg => h g (by simp [hg])
    simp [elemsForest, consE, tagTexts, he, ih hr]

/-- C8 (amended): every assembled note carries exactly one tag element,
whose text is the fixed import marker md2enex-import joined by a colon to
the run timestamp; the marker and the timestamp form one combined tag, and
no separate timestamp-free marker tag exists. -/
theorem c8_single_combined_tag (ctx : MediaCtx) (baseDir file : String)
    (rawChildren : Forest) (createdTs updatedTs runTs : String) :
    tagTexts (process_note ctx baseDir file rawChildren
        createdTs updatedTs runTs).children
      = [APP_NAME ++ "-import" ++ ":" ++ runTs] := by
  have hres : ∀ e ∈ (create_note_content ctx baseDir rawChildren).2, e.tag ≠ "tag" := by
    intro e he
    have ht : e.tag = "resource" := collectResources_tag ctx baseDir _ e he
    rw [ht]
    decide
  have hc : (create_note_content ctx baseDir rawChildren).1.tag = "content" := rfl
  simp only [process_note]
  simp [tagTexts, consE, create_title, create_created, create_updated,
    create_tag, create_note_attributes, firstTextOf, hc,
    tagTexts_elemsForest _ hres]

/-- C8 counterexample: a concrete assembled note has a single tag element,
not a fixed marker tag plus a second timestamped tag. -/
theorem c8_two_tags_counterexample :
    (tagTexts (process_note ⟨[], fun _ => "", fun _ => "", fun _ => none, fun s => s⟩
        "" "f.md" Forest.nil "c" "u" "2024-10-18T09:00:01").children).length = 1 := by
  rfl

/-- C1 counterexample: two media elements referencing one and the same
existing file both resolve to the same bytes, so the processed tree holds
two en-media elements whose hash attribute equals the digest of those
bytes - not exactly one. -/
theorem c1_duplicate_hash_counterexample :
    enMediaHashes (add_resources
        ⟨[("d/a.png", [1, 2])], fun _ => "h", fun _ => "b", fun _ => none, fun s => s⟩
        "d" ⟨"en-note", [],
          Forest.elem "img" [("src", "a.png")] Forest.nil
            (Forest.elem "img" [("src", "a.png")] Forest.nil Forest.nil)⟩).1.children
      = ["h", "h"] ∧
    (⟨[("d/a.png", [1, 2])], fun _ => "h", fun _ => "b", fun _ => none,
        fun s => s⟩ : MediaCtx).md5hex [1, 2] = "h" := by
  exact ⟨rfl, rfl⟩

/-- C2 counterexample: one input file whose conversion fails is a run with
input files present and zero successful notes, and it exits with code 1
(the nonempty error list is checked first), not with code 2 as claimed. -/
theorem c2_zero_success_counterexample :
    write_enex (fun _ => none) ["a.md"] = ⟨true, [], ["a.md"], 1⟩ := by
  rfl

/-! Witnesses: the theorems with hypotheses, instantiated at concrete
inputs. -/

theorem c1_correspondence_witness :
    enMediaHashes (add_resources
        ⟨[("d/a.png", [9])], fun _ => "H9", fun _ => "B9", fun _ => none, fun s => s⟩
        "d" ⟨"en-note", [],
          Forest.elem "img" [("src", "a.png")] Forest.nil Forest.nil⟩).1.children
      = ["H9"] := by
  have h := c1_resource_enmedia_correspondence
    ⟨[("d/a.png", [9])], fun _ => "H9", fun _ => "B9", fun _ => none, fun s => s⟩
    "d" [] (Forest.elem "img" [("src", "a.png")] Forest.nil Forest.nil)
    (by decide) (by decide)
  rw [h.2.1]
  rfl

theorem c5_missing_media_witness :
    mediaElems (add_resources
        ⟨[], fun _ => "H", fun _ => "B", fun _ => none, fun s => s⟩
        "d" ⟨"en-note", [],
          Forest.elem "img" [("src", "gone.png")] Forest.nil Forest.nil⟩).1.children
      = [("img", [("src", "gone.png")])] ∧
    (add_resources ⟨[], fun _ => "H", fun _ => "B", fun _ => none, fun s => s⟩
        "d" ⟨"en-note", [],
          Forest.elem "img" [("src", "gone.png")] Forest.nil Forest.nil⟩).2.length = 0 := by
  have h := c5_missing_media_degrade
    ⟨[], fun _ => "H", fun _ => "B", fun _ => none, fun s => s⟩
    "d" [] (Forest.elem "img" [("src", "gone.png")] Forest.nil Forest.nil)
    (by decide)
  refine ⟨?_, ?_⟩
  · rw [h.2.1]
    rfl
  · rw [h.2.2]
    rfl

theorem c2_exit_code_witness :
    (write_enex (fun _ => some ⟨"note", [], Forest.nil⟩) ["x.md"]).exitCode = 0 ∧
    (write_enex (fun _ => some ⟨"note", [], Forest.nil⟩) ["x.md"]).wroteOutput = true := by
  have h := (c2_exit_code_policy (fun _ => some ⟨"note", [], Forest.nil⟩)
    ["x.md"]).2 (by decide)
  exact ⟨(h.2.2.2.1 (by rfl)).1, h.1⟩

theorem c7_all_success_witness :
    (write_enex (fun f => some ⟨"note", [], Forest.text f Forest.nil⟩)
      ["B.md", "a.md"]).exitCode = 0 ∧
    (write_enex (fun f => some ⟨"note", [], Forest.text f Forest.nil⟩)
      ["B.md", "a.md"]).notes.length = 2 := by
  have h := c7_all_success_export (fun f => some ⟨"note", [], Forest.text f Forest.nil⟩)
    ["B.md", "a.md"] (by decide) (by intro f hf; rfl)
  refine ⟨h.1, ?_⟩
  rw [h.2.1]
  rfl

theorem c10_loop_invariant_witness :
    (write_enex (fun f => if f = "a.md" then some ⟨"note", [], Forest.nil⟩ else none)
      ["a.md", "b.md"]).notes.length +
    (write_enex (fun f => if f = "a.md" then some ⟨"note", [], Forest.nil⟩ else none)
      ["a.md", "b.md"]).errors.length = 2 := by
  have h := (c10_loop_invariant
    (fun f => if f = "a.md" then some ⟨"note", [], Forest.nil⟩ else none)
    ["a.md", "b.md"]).2.2.2.1 (by decide)
  rw [h]
  rfl

end Md2Enex
